import Mathlib

/-!
Verification development for the WayFinder building-navigation repository.

The development shallowly embeds, in Lean, the grid parsing, the graph
construction of Near / vertical-connection edges, the Cypher shortest-path
router, the meeting-room recommender, and the direction renderer, and proves
or refutes the specification claims about them.

Encoding note: Euclidean distances in the source are floating-point square
roots of integer sums of squares, for example
`((x1 - x2) ** 2 + (y1 - y2) ** 2) ** 0.5`.  This development carries the
exact squared distance as an integer instead.  The square root is strictly
monotone, so the source's threshold tests translate exactly:
`dist <= 3` iff the squared distance is `<= 9`, and `dist < 5` iff the
squared distance is `< 25`; equality and symmetry of weights are likewise
preserved.  Every statement about weights below is phrased on the squared
value under this order-isomorphic encoding.
-/

/-! ## Grid parsing (GridCoordinate) -/

/-- Character class of the regex fragment `[A-Z]`. -/
def isUpperAZ (c : Char) : Bool := 65 ≤ c.toNat && c.toNat ≤ 90

/-- Character class of the regex fragment `\d` (ASCII fragment; the claims
only exercise ASCII digits). -/
def isDigitAscii (c : Char) : Bool := 48 ≤ c.toNat && c.toNat ≤ 57

/-- ASCII letter, upper or lower case.  Used only to state the
"pure-letter input" hypothesis of claim C7. -/
def isLetterAscii (c : Char) : Bool :=
  (65 ≤ c.toNat && c.toNat ≤ 90) || (97 ≤ c.toNat && c.toNat ≤ 122)

/-- The `([A-Z]+)` capture of `re.match(r"([A-Z]+)(\d+)", s)`: the maximal
leading run of uppercase letters. -/
def lettersOf (s : String) : List Char := s.data.takeWhile isUpperAZ

/-- The `(\d+)` capture of `re.match(r"([A-Z]+)(\d+)", s)`: the maximal run
of digits immediately following the letters. -/
def digitsOf (s : String) : List Char :=
  (s.data.drop (lettersOf s).length).takeWhile isDigitAscii

/-- Embeds `re.match(r"([A-Z]+)(\d+)", s)`: succeeds iff a non-empty letter
run is immediately followed by a non-empty digit run (`re.match` anchors at
the start only, so trailing characters are ignored, as in the source). -/
def gridMatch (s : String) : Option (List Char × List Char) :=
  if lettersOf s = [] ∨ digitsOf s = [] then none
  else some (lettersOf s, digitsOf s)

/-- `int(digits)`: decimal value of a digit run. -/
def digitsVal (l : List Char) : ℕ := l.foldl (fun r c => r * 10 + (c.toNat - 48)) 0

/-- Column value of `EndeavorRAG.parse_grid` in `endeavor_rag_directory.py`:
`sum((ord(c) - ord('A') + 1) * (26 ** i) for i, c in enumerate(reversed(letters)))`. -/
def colSum (l : List Char) : ℕ :=
  (l.reverse.enum.map (fun p => (p.2.toNat - 65 + 1) * 26 ^ p.1)).sum

/-- `EndeavorGraph._col_to_num` in `endeavor_graph2.py`:
`result = result * 26 + (ord(c.upper()) - ord('A') + 1)` over the letters. -/
def col_to_num (l : List Char) : ℕ :=
  l.foldl (fun r c => r * 26 + (c.toUpper.toNat - 65 + 1)) 0

/-- `EndeavorRAG.parse_grid` in `endeavor_rag_directory.py`: regex match,
then `(col, row)` with the A=1 base-26 column and the decimal row. -/
def parse_grid (s : String) : Option (ℕ × ℕ) :=
  match gridMatch s with
  | none => none
  | some (ls, ds) => some (colSum ls, digitsVal ds)

/-- The coordinate extraction inside `EndeavorGraph._calculate_grid_distance`
of `endeavor_graph2.py`: regex match, then `_col_to_num` column and `int` row. -/
def parse_grid2 (s : String) : Option (ℕ × ℕ) :=
  match gridMatch s with
  | none => none
  | some (ls, ds) => some (col_to_num ls, digitsVal ds)

/-- Squared Euclidean distance between two parsed coordinates
(the source computes `((x1 - x2) ** 2 + (y1 - y2) ** 2) ** 0.5`; see the
encoding note at the top of the file). -/
def gridDistSq (c1 c2 : ℕ × ℕ) : ℤ :=
  ((c1.1 : ℤ) - (c2.1 : ℤ)) ^ 2 + ((c1.2 : ℤ) - (c2.2 : ℤ)) ^ 2

/-- `EndeavorGraph._calculate_grid_distance` of `endeavor_graph2.py`
(squared encoding): `None` when either grid fails the regex, otherwise the
squared Euclidean distance of the two parsed coordinates.  The bare
`except` of the source never fires on string inputs, so the regex test is
the only failure path. -/
def calculate_grid_distance_sq (g1 g2 : String) : Option ℤ :=
  match parse_grid2 g1, parse_grid2 g2 with
  | some c1, some c2 => some (gridDistSq c1 c2)
  | _, _ => none

/-- `EndeavorGraph._calculate_grid_distance` of `old.py` (squared encoding):
the source applies `ord` to the whole letter capture, which raises
`TypeError` (caught, yielding `None`) unless the capture is a single
letter; the column convention is A=0, which cancels in the difference. -/
def calculate_grid_distance_sq_old (g1 g2 : String) : Option ℤ :=
  match gridMatch g1, gridMatch g2 with
  | some (l1, d1), some (l2, d2) =>
    if l1.length = 1 ∧ l2.length = 1 then
      some ((((l1.headD 'A').toNat : ℤ) - 65 - (((l2.headD 'A').toNat : ℤ) - 65)) ^ 2 +
            ((digitsVal d1 : ℤ) - (digitsVal d2 : ℤ)) ^ 2)
    else none
  | _, _ => none

/-! ## Graph construction (LocationGraph) -/

/-- A location node as fetched back from the store for relationship
creation: `id`, the label derived from the input `type` field, `name`,
`grid` and `level`. -/
structure GNode where
  id : String
  kind : String
  name : String
  grid : String
  level : Int
deriving DecidableEq

/-- All ordered pairs `(l[i], l[j])` with `i < j`, as produced by the
source's double loop `for i ...: for j in range(i + 1, ...)`. -/
def allPairs {α : Type} : List α → List (α × α)
  | [] => []
  | x :: xs => xs.map (fun y => (x, y)) ++ allPairs xs

/-- `EndeavorGraph._create_near_relationships` of `endeavor_graph2.py`
(squared encoding): for each unordered pair, skip different levels, compute
the distance, and when it is `<= 3` (squared: `<= 9`) create the `NEAR`
edge in both directions with the distance as weight. -/
def nearEdges (nodes : List GNode) : List (String × String × ℤ) :=
  (allPairs nodes).flatMap (fun p =>
    if p.1.level ≠ p.2.level then []
    else
      match calculate_grid_distance_sq p.1.grid p.2.grid with
      | none => []
      | some d => if d ≤ 9 then [(p.1.id, p.2.id, d), (p.2.id, p.1.id, d)] else [])

/-- `EndeavorGraph._create_near_relationships` of `old.py` (squared
encoding): no level filter, threshold `< 5` (squared: `< 25`), and the
`NEAR` edge is created in one direction only. -/
def nearEdgesOld (nodes : List GNode) : List (String × String × ℤ) :=
  (allPairs nodes).flatMap (fun p =>
    match calculate_grid_distance_sq_old p.1.grid p.2.grid with
    | none => []
    | some d => if d < 25 then [(p.1.id, p.2.id, d)] else [])

/-- `EndeavorGraph._create_stairs_to_relationships` of `endeavor_graph2.py`:
`MATCH (a:Stairs), (b:Stairs) WHERE a.grid = b.grid AND a.level <> b.level
MERGE (a)-[:STAIRS_TO]->(b)` ranges over all ordered pairs, so both
directions arise from the symmetric condition.  The relationship carries no
weight property. -/
def stairsEdges (nodes : List GNode) : List (String × String) :=
  nodes.flatMap (fun a => nodes.flatMap (fun b =>
    if a.kind = "Stairs" ∧ b.kind = "Stairs" ∧ a.grid = b.grid ∧ a.level ≠ b.level
    then [(a.id, b.id)] else []))

/-! ## Router -/

/-- A directed stored edge of the graph database: endpoints by node name
resolution happens through `RGraph.nodeNames`; `kind` is the relationship
type and `distance` its weight property (0 when absent). -/
structure REdge where
  src : String
  dst : String
  kind : String
  distance : ℚ
deriving DecidableEq

/-- The graph a routing query runs against: the location names and the
stored edges of every relationship type. -/
structure RGraph where
  nodeNames : List String
  edges : List REdge
deriving DecidableEq

/-- Relationship types admitted by the routing pattern:
`[:NEAR|STAIRS_TO*]` in `endeavor_rag.py` and `[:NEAR|CONNECTS_TO*]` in
`endeavor_rag_directory.py` (a graph built by one builder contains vertical
edges of only one of the two names). -/
def routeKind (k : String) : Bool :=
  k == "NEAR" || k == "STAIRS_TO" || k == "CONNECTS_TO"

/-- Undirected adjacency along admitted relationship types, as in the
pattern `(start)-[:NEAR|STAIRS_TO*]-(end)` which ignores direction. -/
def adj (g : RGraph) (x y : String) : Bool :=
  g.edges.any (fun e => routeKind e.kind &&
    ((e.src == x && e.dst == y) || (e.src == y && e.dst == x)))

/-- Each consecutive pair of the list is adjacent through an admitted edge
type. -/
def chainAdj (g : RGraph) : List String → Bool
  | x :: y :: rest => adj g x y && chainAdj g (y :: rest)
  | _ => true

/-- A valid routing path: non-empty, starts at `s`, ends at `e`, visits
only graph nodes, and each consecutive pair is adjacent through an admitted
edge type. -/
def validPath (g : RGraph) (s e : String) (p : List String) : Prop :=
  p ≠ [] ∧ p.head? = some s ∧ p.getLast? = some e ∧
  (∀ m ∈ p, m ∈ g.nodeNames) ∧ chainAdj g p = true

instance (g : RGraph) (s e : String) (p : List String) : Decidable (validPath g s e p) :=
  inferInstanceAs (Decidable (p ≠ [] ∧ p.head? = some s ∧ p.getLast? = some e ∧
    (∀ m ∈ p, m ∈ g.nodeNames) ∧ chainAdj g p = true))

/-- Weight of the first admitted stored edge between two names (the claim
speaks of the sum of edge weights along a path; the router itself never
reads weights). -/
def edgeWeight (g : RGraph) (x y : String) : ℚ :=
  ((g.edges.filter (fun e => routeKind e.kind &&
    ((e.src == x && e.dst == y) || (e.src == y && e.dst == x)))).map
      REdge.distance).headD 0

/-- Total weight of a path: the sum of its edge weights. -/
def pathWeight (g : RGraph) : List String → ℚ
  | x :: y :: rest => edgeWeight g x y + pathWeight g (y :: rest)
  | _ => 0

/-- All simple paths that start at `x`, avoid `vis`, follow admitted edges,
and use at most `fuel` edges.  This enumeration realizes the declarative
Cypher `shortestPath` search space: that engine computes a fewest-
relationships path, so the model picks a minimum-length element of this
set. -/
def spathsAux (g : RGraph) : ℕ → String → List String → List (List String)
  | 0, x, _ => [[x]]
  | fuel + 1, x, vis =>
      [x] :: (g.nodeNames.filter (fun y => adj g x y && !(vis.contains y))).flatMap
        (fun y => (spathsAux g fuel y (y :: vis)).map (fun p => x :: p))

/-- Candidate paths of the pattern `(start)-[:NEAR|STAIRS_TO*]-(end)`:
simple paths from `s` ending at `e`. -/
def candidates (g : RGraph) (s e : String) : List (List String) :=
  (spathsAux g g.nodeNames.length s [s]).filter (fun p => p.getLast? == some e)

/-- First element of minimal length, the stable choice among equal-length
candidates. -/
def pickMin : List (List String) → Option (List String)
  | [] => none
  | h :: t => some (t.foldl (fun best p => if p.length < best.length then p else best) h)

/-- `EndeavorRAG.get_shortest_path`: `MATCH` both names (an absent name
yields no row, hence `[]`), then Cypher `shortestPath` over the admitted
relationship types — an unweighted fewest-relationships search; identical
endpoints yield the zero-length path.  The function returns only the node
names, and returns `[]` when no row is produced. -/
def get_shortest_path (g : RGraph) (start_name end_name : String) : List String :=
  if ¬ (start_name ∈ g.nodeNames ∧ end_name ∈ g.nodeNames) then []
  else if start_name = end_name then [start_name]
  else
    match pickMin (candidates g start_name end_name) with
    | some p => p
    | none => []

/-! ## Recommender -/

/-- A row of `PostgresBookingManager.get_available_rooms`:
`(room_id, name, grid, capacity, type)`. -/
structure Room where
  room_id : String
  name : String
  grid : String
  capacity : ℕ
  rtype : String
deriving DecidableEq

/-- A heap entry of `MeetingRoomRecommender.recommend`:
`(avg_dist, name, grid, capacity, type_)`, ordered as Python orders tuples —
lexicographically with the mean distance first. -/
abbrev Entry := ℚ ×ₗ (String ×ₗ (String ×ₗ (ℕ ×ₗ String)))

/-- Builds a heap entry. -/
def mkEntry (d : ℚ) (n g : String) (c : ℕ) (t : String) : Entry :=
  toLex (d, toLex (n, toLex (g, toLex (c, t))))

/-- The mean-distance component of an entry. -/
def entryDist (e : Entry) : ℚ := (ofLex e).1

/-- Reorders a popped entry into the returned tuple
`(name, grid, dist, capacity, type_)`. -/
def entryOut (e : Entry) : String × String × ℚ × ℕ × String :=
  ((ofLex (ofLex e).2).1, ((ofLex (ofLex (ofLex e).2).2).1, ((ofLex e).1,
    ((ofLex (ofLex (ofLex (ofLex e).2).2).2).1, (ofLex (ofLex (ofLex (ofLex e).2).2).2).2))))

/-- The per-room requester distances
`[d for ug in user_grids if (d := dist(ug, room.grid)) is not None]`.
`dist` is the injected graph collaborator `self.graph._calculate_grid_distance`. -/
def roomDistances (dist : String → String → Option ℚ) (user_grids : List String)
    (room : Room) : List ℚ :=
  user_grids.filterMap (fun ug => dist ug room.grid)

/-- `avg_dist = sum(distances) / len(distances)`. -/
def meanDistance (dist : String → String → Option ℚ) (user_grids : List String)
    (room : Room) : ℚ :=
  (roomDistances dist user_grids room).sum / (roomDistances dist user_grids room).length

/-- The heap entry a room contributes when it has at least one computable
requester distance. -/
def roomEntry (dist : String → String → Option ℚ) (user_grids : List String)
    (room : Room) : Entry :=
  mkEntry (meanDistance dist user_grids room) room.name room.grid room.capacity room.rtype

/-- The available rooms that reach the heap: those with a non-empty
distance list. -/
def rankedRooms (dist : String → String → Option ℚ) (user_grids : List String)
    (available_rooms : List Room) : List Room :=
  available_rooms.filter (fun room => !(roomDistances dist user_grids room).isEmpty)

/-- `MeetingRoomRecommender.recommend`, parameterized by the injected
distance collaborator: build a heap entry for every available room with a
non-empty distance list, then pop `min(top_k, len(room_heap))` entries in
ascending tuple order and reorder each into
`(name, grid, dist, capacity, type_)`.  Popping a binary min-heap of
tuples yields exactly the ascending lexicographic order, here realized by
sorting. -/
def recommend (dist : String → String → Option ℚ) (user_grids : List String)
    (available_rooms : List Room) (top_k : ℕ) :
    List (String × String × ℚ × ℕ × String) :=
  let entries := available_rooms.filterMap (fun room =>
    if (roomDistances dist user_grids room).isEmpty then none
    else some (roomEntry dist user_grids room))
  let sorted := List.insertionSort (fun a b => a ≤ b) entries
  (sorted.take (min top_k sorted.length)).map entryOut

/-- The distance collaborator actually injected into the recommender: the
graph's `_calculate_grid_distance`, its squared-encoding value cast into
the rational distance domain of the heap. -/
def graphDistQ (g1 g2 : String) : Option ℚ :=
  (calculate_grid_distance_sq g1 g2).map (fun z => (z : ℚ))

/-! ## Direction renderer -/

/-- A node of a rendered path as returned by `get_node_details`:
`name`, `grid`, `level`. -/
structure PathNode where
  name : String
  grid : String
  level : Int
deriving DecidableEq

/-- One rendered step
`"From '<cur>', go <direction> for <distance> meters to '<nxt>'"`, with the
optional `" (and go to Level <n>)"` suffix; `distSq` is the squared grid
distance (the source prints `round(sqrt(distSq) * 1.5, 1)`). -/
structure Step where
  fromName : String
  toName : String
  direction : String
  distSq : ℤ
  levelNote : Option Int
deriving DecidableEq

/-- The `math.atan2` of the source, on real numbers. -/
noncomputable def atan2 (y x : ℝ) : ℝ :=
  if 0 < x then Real.arctan (y / x)
  else if x < 0 ∧ 0 ≤ y then Real.arctan (y / x) + Real.pi
  else if x < 0 ∧ y < 0 then Real.arctan (y / x) - Real.pi
  else if 0 < y then Real.pi / 2
  else if y < 0 then -(Real.pi / 2)
  else 0

/-- Python's `% 360` on reals (floor modulus). -/
noncomputable def pymod360 (x : ℝ) : ℝ := x - 360 * (⌊x / 360⌋ : ℤ)

/-- `angle = math.degrees(math.atan2(dy, dx)) % 360`. -/
noncomputable def angleDeg (dx dy : ℤ) : ℝ :=
  pymod360 (atan2 (dy : ℝ) (dx : ℝ) * 180 / Real.pi)

/-- The `dirs` table of `EndeavorRAG._vector_to_direction`. -/
noncomputable def compassDirs : List (ℝ × String) :=
  [(0, "south"), (45, "southeast"), (90, "east"), (135, "northeast"),
   (180, "north"), (225, "northwest"), (270, "west"), (315, "southwest")]

/-- Python's `min(l, key=key)` over a non-empty list, with `best` the head:
keeps the earliest element on ties. -/
noncomputable def minByKey (key : ℝ × String → ℝ) :
    List (ℝ × String) → ℝ × String → ℝ × String
  | [], best => best
  | d :: rest, best => minByKey key rest (if key d < key best then d else best)

/-- `EndeavorRAG._vector_to_direction`:
`closest = min(dirs, key=lambda d: abs(d[0] - angle))`. -/
noncomputable def vector_to_direction (dx dy : ℤ) : String :=
  (minByKey (fun d => |d.1 - angleDeg dx dy|) (compassDirs.drop 1)
    (compassDirs.headD (0, "south"))).2

/-- Modelled from the spec's words, for comparison with
`vector_to_direction`: the circularly nearest 45-degree octant ("snapped to
the nearest 45° octant"), measuring label distance around the circle. -/
noncomputable def nearestOctantDir (dx dy : ℤ) : String :=
  (minByKey (fun d => min |d.1 - angleDeg dx dy| (360 - |d.1 - angleDeg dx dy|))
    (compassDirs.drop 1) (compassDirs.headD (0, "south"))).2

/-- The step-emitting loop of `EndeavorRAG.generate_directions`: a
consecutive pair where either grid fails to parse is skipped (`continue`);
otherwise a step is emitted with the compass direction of the signed delta
vector, the (squared) distance, and the level-change note. -/
noncomputable def genSteps : List PathNode → List Step
  | cur :: nxt :: rest =>
    (match parse_grid cur.grid, parse_grid nxt.grid with
     | some p1, some p2 =>
        [⟨cur.name, nxt.name,
          vector_to_direction ((p2.1 : ℤ) - (p1.1 : ℤ)) ((p2.2 : ℤ) - (p1.2 : ℤ)),
          ((p2.1 : ℤ) - (p1.1 : ℤ)) ^ 2 + ((p2.2 : ℤ) - (p1.2 : ℤ)) ^ 2,
          if cur.level ≠ nxt.level then some nxt.level else none⟩]
     | _, _ => []) ++ genSteps (nxt :: rest)
  | _ => []

/-- `EndeavorRAG.generate_directions` as a step list: fewer than two nodes
render no steps (the source returns the "already at the destination"
message there), otherwise the emitted steps in order. -/
noncomputable def generate_directions (node_infos : List PathNode) : List Step :=
  if node_infos.length < 2 then [] else genSteps node_infos

/-- Number of consecutive pairs of the path whose two grids both parse:
by claim C8 exactly these pairs should emit steps only when their
coordinates differ; the code emits a step for every such pair. -/
def parseablePairCount : List PathNode → ℕ
  | cur :: nxt :: rest =>
    (if (parse_grid cur.grid).isSome ∧ (parse_grid nxt.grid).isSome then 1 else 0) +
      parseablePairCount (nxt :: rest)
  | _ => 0

/-! ## Concrete fixtures used by witnesses and counterexamples -/

/-- A three-node line graph `a - b - c` with unit `NEAR` weights. -/
def lineGraph : RGraph :=
  ⟨["a", "b", "c"],
   [⟨"a", "b", "NEAR", 1⟩, ⟨"b", "a", "NEAR", 1⟩,
    ⟨"b", "c", "NEAR", 1⟩, ⟨"c", "b", "NEAR", 1⟩]⟩

/-- A triangle in which the direct `a - b` edge is heavier (weight 5) than
the two-hop detour through `c` (weight 1 + 1). -/
def heavyGraph : RGraph :=
  ⟨["a", "b", "c"],
   [⟨"a", "b", "NEAR", 5⟩, ⟨"b", "a", "NEAR", 5⟩,
    ⟨"a", "c", "NEAR", 1⟩, ⟨"c", "a", "NEAR", 1⟩,
    ⟨"c", "b", "NEAR", 1⟩, ⟨"b", "c", "NEAR", 1⟩]⟩

/-- Two valid but disconnected nodes and no edges. -/
def islandGraph : RGraph := ⟨["a", "b"], []⟩

/-! ## Lemmas about grid parsing -/

theorem digit_not_upperAZ {c : Char} (h : isDigitAscii c = true) : isUpperAZ c = false := by
  simp only [isDigitAscii, Bool.and_eq_true, decide_eq_true_eq] at h
  simp only [isUpperAZ, Bool.and_eq_false_iff, decide_eq_false_iff_not, not_le]
  omega

theorem letter_not_digit {c : Char} (h : isLetterAscii c = true) : isDigitAscii c = false := by
  simp only [isLetterAscii, Bool.or_eq_true, Bool.and_eq_true, decide_eq_true_eq] at h
  simp only [isDigitAscii, Bool.and_eq_false_iff, decide_eq_false_iff_not, not_le]
  omega

theorem lettersOf_eq_nil_of_digits {s : String}
    (h : ∀ c ∈ s.data, isDigitAscii c = true) : lettersOf s = [] := by
  unfold lettersOf
  cases hd : s.data with
  | nil => rfl
  | cons c t =>
    have hc : isDigitAscii c = true := h c (hd ▸ List.mem_cons_self c t)
    simp [List.takeWhile_cons, digit_not_upperAZ hc]

theorem digitsOf_eq_nil_of_letters {s : String}
    (h : ∀ c ∈ s.data, isLetterAscii c = true) : digitsOf s = [] := by
  unfold digitsOf
  cases hd : (s.data.drop (lettersOf s).length) with
  | nil => rfl
  | cons c t =>
    have hc : c ∈ s.data := by
      have : c ∈ s.data.drop (lettersOf s).length := hd ▸ List.mem_cons_self c t
      exact List.drop_subset _ _ this
    simp [List.takeWhile_cons, letter_not_digit (h c hc)]

theorem gridMatch_eq_none_left {s : String} (h : lettersOf s = []) : gridMatch s = none := by
  unfold gridMatch
  simp [h]

theorem gridMatch_eq_none_right {s : String} (h : digitsOf s = []) : gridMatch s = none := by
  unfold gridMatch
  simp [h]

theorem parse_grid_eq_none {s : String} (h : gridMatch s = none) : parse_grid s = none := by
  unfold parse_grid
  rw [h]

theorem parse_grid2_eq_none {s : String} (h : gridMatch s = none) : parse_grid2 s = none := by
  unfold parse_grid2
  rw [h]

theorem calc_none_left {g1 g2 : String} (h : parse_grid2 g1 = none) :
    calculate_grid_distance_sq g1 g2 = none := by
  unfold calculate_grid_distance_sq
  rw [h]

/-- C6: grid parsing uses the A=1 base-26 column convention: "F8" parses to
column 6, row 8, and "AA12" parses to column 27, row 12 — both for
`parse_grid` of the directory RAG and for the regex-plus-`_col_to_num`
extraction of the graph builder. -/
theorem C6_grid_parse_convention :
    parse_grid "F8" = some (6, 8) ∧ parse_grid "AA12" = some (27, 12) ∧
    parse_grid2 "F8" = some (6, 8) ∧ parse_grid2 "AA12" = some (27, 12) := by
  decide

/-- C7: grid parsing is total and returns "no coordinate" (`none`) on empty
input, pure-digit input, and pure-letter input, in both parser variants;
and a grid that fails to parse makes the builder's distance computation
return `none` (the pair is skipped) rather than aborting construction. -/
theorem C7_parse_total_on_malformed :
    (parse_grid "" = none ∧ parse_grid2 "" = none) ∧
    (∀ s : String, (∀ c ∈ s.data, isDigitAscii c = true) →
      parse_grid s = none ∧ parse_grid2 s = none) ∧
    (∀ s : String, (∀ c ∈ s.data, isLetterAscii c = true) →
      parse_grid s = none ∧ parse_grid2 s = none) ∧
    (∀ g1 g2 : String, parse_grid2 g1 = none →
      calculate_grid_distance_sq g1 g2 = none) := by
  refine ⟨by decide, ?_, ?_, ?_⟩
  · intro s h
    have hm := gridMatch_eq_none_left (lettersOf_eq_nil_of_digits h)
    exact ⟨parse_grid_eq_none hm, parse_grid2_eq_none hm⟩
  · intro s h
    have hm := gridMatch_eq_none_right (digitsOf_eq_nil_of_letters h)
    exact ⟨parse_grid_eq_none hm, parse_grid2_eq_none hm⟩
  · intro g1 g2 h
    exact calc_none_left h

/-- Witness for C7 at concrete malformed inputs. -/
theorem C7_witness :
    (parse_grid "" = none ∧ parse_grid2 "" = none) ∧
    (parse_grid "123" = none ∧ parse_grid2 "123" = none) ∧
    (parse_grid "ABC" = none ∧ parse_grid2 "ABC" = none) ∧
    calculate_grid_distance_sq "?" "A1" = none := by
  refine ⟨C7_parse_total_on_malformed.1, ?_, ?_, ?_⟩
  · exact C7_parse_total_on_malformed.2.1 "123" (by decide)
  · exact C7_parse_total_on_malformed.2.2.1 "ABC" (by decide)
  · exact C7_parse_total_on_malformed.2.2.2 "?" "A1" (by decide)

/-! ## Lemmas about graph construction -/

theorem gridDistSq_comm (c1 c2 : ℕ × ℕ) : gridDistSq c1 c2 = gridDistSq c2 c1 := by
  unfold gridDistSq
  ring

theorem calc_comm (g1 g2 : String) :
    calculate_grid_distance_sq g1 g2 = calculate_grid_distance_sq g2 g1 := by
  unfold calculate_grid_distance_sq
  cases parse_grid2 g1 <;> cases parse_grid2 g2 <;> simp [gridDistSq_comm]

theorem calc_eq_some_iff {g1 g2 : String} {w : ℤ} :
    calculate_grid_distance_sq g1 g2 = some w ↔
    ∃ c1 c2, parse_grid2 g1 = some c1 ∧ parse_grid2 g2 = some c2 ∧ w = gridDistSq c1 c2 := by
  unfold calculate_grid_distance_sq
  cases h1 : parse_grid2 g1 <;> cases h2 : parse_grid2 g2 <;> simp
  exact eq_comm

theorem mem_allPairs {α : Type} {l : List α} {a b : α} (h : (a, b) ∈ allPairs l) :
    a ∈ l ∧ b ∈ l := by
  induction l with
  | nil => simp [allPairs] at h
  | cons x xs ih =>
    simp only [allPairs, List.mem_append, List.mem_map] at h
    rcases h with ⟨y, hy, hxy⟩ | h
    · obtain ⟨rfl, rfl⟩ := Prod.mk.injEq .. ▸ hxy
      exact ⟨List.mem_cons_self _ _, List.mem_cons_of_mem _ hy⟩
    · obtain ⟨ha, hb⟩ := ih h
      exact ⟨List.mem_cons_of_mem _ ha, List.mem_cons_of_mem _ hb⟩

theorem mem_allPairs_of_ne {α : Type} {l : List α} {a b : α}
    (ha : a ∈ l) (hb : b ∈ l) (hne : a ≠ b) :
    (a, b) ∈ allPairs l ∨ (b, a) ∈ allPairs l := by
  induction l with
  | nil => simp at ha
  | cons x xs ih =>
    rcases List.mem_cons.1 ha with rfl | ha'
    · rcases List.mem_cons.1 hb with rfl | hb'
      · exact absurd rfl hne
      · exact Or.inl (by simp [allPairs, List.mem_append]; exact Or.inl hb')
    · rcases List.mem_cons.1 hb with rfl | hb'
      · exact Or.inr (by simp [allPairs, List.mem_append]; exact Or.inl ha')
      · rcases ih ha' hb' with h | h
        · exact Or.inl (by simp [allPairs, List.mem_append]; exact Or.inr h)
        · exact Or.inr (by simp [allPairs, List.mem_append]; exact Or.inr h)

theorem allPairs_id_ne {l : List GNode} (hnd : (l.map GNode.id).Nodup)
    {a b : GNode} (h : (a, b) ∈ allPairs l) : a.id ≠ b.id := by
  induction l with
  | nil => simp [allPairs] at h
  | cons x xs ih =>
    rw [List.map_cons, List.nodup_cons] at hnd
    simp only [allPairs, List.mem_append, List.mem_map] at h
    rcases h with ⟨y, hy, hxy⟩ | h
    · obtain ⟨rfl, rfl⟩ := Prod.mk.injEq .. ▸ hxy
      intro he
      exact hnd.1 (he ▸ List.mem_map_of_mem GNode.id hy)
    · exact ih hnd.2 h

theorem id_injective {l : List GNode} (hnd : (l.map GNode.id).Nodup)
    {a b : GNode} (ha : a ∈ l) (hb : b ∈ l) (h : a.id = b.id) : a = b :=
  List.inj_on_of_nodup_map hnd ha hb h

theorem mem_nearEdges_iff {nodes : List GNode} {x y : String} {w : ℤ} :
    (x, y, w) ∈ nearEdges nodes ↔
    ∃ p ∈ allPairs nodes, p.1.level = p.2.level ∧
      calculate_grid_distance_sq p.1.grid p.2.grid = some w ∧ w ≤ 9 ∧
      ((x = p.1.id ∧ y = p.2.id) ∨ (x = p.2.id ∧ y = p.1.id)) := by
  unfold nearEdges
  rw [List.mem_flatMap]
  constructor
  · rintro ⟨p, hp, hmem⟩
    by_cases hl : p.1.level = p.2.level
    · rw [if_neg (not_not_intro hl)] at hmem
      rcases hc : calculate_grid_distance_sq p.1.grid p.2.grid with _ | d
      · simp only [hc] at hmem
        simp at hmem
      · simp only [hc] at hmem
        by_cases hd : d ≤ 9
        · rw [if_pos hd] at hmem
          simp only [List.mem_cons, List.mem_singleton, Prod.mk.injEq] at hmem
          refine ⟨p, hp, hl, ?_⟩
          rcases hmem with ⟨hx, hy, hw⟩ | ⟨hx, hy, hw⟩ | hfalse
          · subst hw
            exact ⟨hc, hd, Or.inl ⟨hx, hy⟩⟩
          · subst hw
            exact ⟨hc, hd, Or.inr ⟨hx, hy⟩⟩
          · simp at hfalse
        · rw [if_neg hd] at hmem
          simp at hmem
    · rw [if_pos hl] at hmem
      simp at hmem
  · rintro ⟨p, hp, hl, hc, hd, hxy⟩
    refine ⟨p, hp, ?_⟩
    rw [if_neg (not_not_intro hl)]
    simp only [hc]
    rw [if_pos hd]
    rcases hxy with ⟨rfl, rfl⟩ | ⟨rfl, rfl⟩
    · exact List.mem_cons_self _ _
    · exact List.mem_cons_of_mem _ (List.mem_singleton.2 rfl)

/-- C4: in the graph built by `endeavor_graph2.py`, a `NEAR` edge exists
exactly for the unordered pairs of distinct locations on the same level
whose grids both parse and whose (squared) Euclidean distance is at most
the threshold, and its weight is that (squared) distance. -/
theorem C4_near_edge_exact (nodes : List GNode) (hnd : (nodes.map GNode.id).Nodup)
    (a b : GNode) (ha : a ∈ nodes) (hb : b ∈ nodes) :
    ((∃ w, (a.id, b.id, w) ∈ nearEdges nodes) ↔
      (a ≠ b ∧ a.level = b.level ∧
        ∃ c1 c2, parse_grid2 a.grid = some c1 ∧ parse_grid2 b.grid = some c2 ∧
          gridDistSq c1 c2 ≤ 9)) ∧
    (∀ w, (a.id, b.id, w) ∈ nearEdges nodes →
      calculate_grid_distance_sq a.grid b.grid = some w) := by
  have key : ∀ w, (a.id, b.id, w) ∈ nearEdges nodes →
      a ≠ b ∧ a.level = b.level ∧ calculate_grid_distance_sq a.grid b.grid = some w ∧ w ≤ 9 := by
    intro w hw
    rw [mem_nearEdges_iff] at hw
    obtain ⟨p, hp, hl, hc, hd, hxy⟩ := hw
    have hpm := mem_allPairs hp
    have hpne := allPairs_id_ne hnd hp
    rcases hxy with ⟨h1, h2⟩ | ⟨h1, h2⟩
    · have e1 : p.1 = a := id_injective hnd hpm.1 ha h1.symm
      have e2 : p.2 = b := id_injective hnd hpm.2 hb h2.symm
      rw [e1, e2] at hl hc hpne
      exact ⟨fun hab => hpne (by rw [hab]), hl, hc, hd⟩
    · have e1 : p.1 = b := id_injective hnd hpm.1 hb h2.symm
      have e2 : p.2 = a := id_injective hnd hpm.2 ha h1.symm
      rw [e1, e2] at hl hc hpne
      rw [calc_comm] at hc
      exact ⟨fun hab => hpne (by rw [hab]), hl.symm, hc, hd⟩
  constructor
  · constructor
    · rintro ⟨w, hw⟩
      obtain ⟨hab, hl, hc, hd⟩ := key w hw
      obtain ⟨c1, c2, h1, h2, he⟩ := calc_eq_some_iff.1 hc
      exact ⟨hab, hl, c1, c2, h1, h2, he ▸ hd⟩
    · rintro ⟨hab, hl, c1, c2, h1, h2, hd⟩
      have hc : calculate_grid_distance_sq a.grid b.grid = some (gridDistSq c1 c2) :=
        calc_eq_some_iff.2 ⟨c1, c2, h1, h2, rfl⟩
      refine ⟨gridDistSq c1 c2, ?_⟩
      rw [mem_nearEdges_iff]
      rcases mem_allPairs_of_ne ha hb hab with hpair | hpair
      · exact ⟨(a, b), hpair, hl, hc, hd, Or.inl ⟨rfl, rfl⟩⟩
      · refine ⟨(b, a), hpair, hl.symm, ?_, hd, Or.inr ⟨rfl, rfl⟩⟩
        rw [calc_comm]
        exact hc
  · intro w hw
    exact (key w hw).2.2.1

/-- Witness for C4 on a concrete two-node graph: grids "A1" and "A3" on the
same level are at squared distance 4, within the threshold, and the created
edge carries that weight. -/
theorem C4_witness :
    (∃ w, ("1", "2", w) ∈ nearEdges
      [⟨"1", "ConferenceRoom", "A", "A1", 1⟩, ⟨"2", "ConferenceRoom", "B", "A3", 1⟩]) ∧
    calculate_grid_distance_sq "A1" "A3" = some 4 := by
  have h := C4_near_edge_exact
    [⟨"1", "ConferenceRoom", "A", "A1", 1⟩, ⟨"2", "ConferenceRoom", "B", "A3", 1⟩]
    (by decide) ⟨"1", "ConferenceRoom", "A", "A1", 1⟩ ⟨"2", "ConferenceRoom", "B", "A3", 1⟩
    (by simp) (by simp)
  exact ⟨h.1.mpr ⟨by decide, by decide, (1, 1), (1, 3), by decide, by decide, by decide⟩,
    h.2 4 (by decide)⟩

theorem mem_stairsEdges_iff {nodes : List GNode} {x y : String} :
    (x, y) ∈ stairsEdges nodes ↔
    ∃ a ∈ nodes, ∃ b ∈ nodes, a.kind = "Stairs" ∧ b.kind = "Stairs" ∧
      a.grid = b.grid ∧ a.level ≠ b.level ∧ x = a.id ∧ y = b.id := by
  unfold stairsEdges
  rw [List.mem_flatMap]
  constructor
  · rintro ⟨a, ha, hmem⟩
    rw [List.mem_flatMap] at hmem
    obtain ⟨b, hb, hmem⟩ := hmem
    split at hmem
    · rename_i hcond
      simp only [List.mem_singleton, Prod.mk.injEq] at hmem
      exact ⟨a, ha, b, hb, hcond.1, hcond.2.1, hcond.2.2.1, hcond.2.2.2, hmem.1, hmem.2⟩
    · simp at hmem
  · rintro ⟨a, ha, b, hb, h1, h2, h3, h4, rfl, rfl⟩
    refine ⟨a, ha, ?_⟩
    rw [List.mem_flatMap]
    refine ⟨b, hb, ?_⟩
    rw [if_pos ⟨h1, h2, h3, h4⟩]
    exact List.mem_singleton.2 rfl

/-- C5 (amended): in every graph produced by the current builder
(`endeavor_graph2.py`), `NEAR` and `STAIRS_TO` edges are symmetric: the
edge from A to B exists iff the edge from B to A exists, `NEAR` with equal
weight in both directions (`STAIRS_TO` carries no weight property, so the
two directions trivially agree). -/
theorem C5_current_builder_symmetric (nodes : List GNode) :
    (∀ x y : String, ∀ w : ℤ,
      (x, y, w) ∈ nearEdges nodes ↔ (y, x, w) ∈ nearEdges nodes) ∧
    (∀ x y : String, (x, y) ∈ stairsEdges nodes ↔ (y, x) ∈ stairsEdges nodes) := by
  constructor
  · intro x y w
    rw [mem_nearEdges_iff, mem_nearEdges_iff]
    constructor
    · rintro ⟨p, hp, hl, hc, hd, hxy⟩
      refine ⟨p, hp, hl, hc, hd, ?_⟩
      rcases hxy with ⟨h1, h2⟩ | ⟨h1, h2⟩
      · exact Or.inr ⟨h2, h1⟩
      · exact Or.inl ⟨h2, h1⟩
    · rintro ⟨p, hp, hl, hc, hd, hxy⟩
      refine ⟨p, hp, hl, hc, hd, ?_⟩
      rcases hxy with ⟨h1, h2⟩ | ⟨h1, h2⟩
      · exact Or.inr ⟨h2, h1⟩
      · exact Or.inl ⟨h2, h1⟩
  · intro x y
    rw [mem_stairsEdges_iff, mem_stairsEdges_iff]
    constructor
    · rintro ⟨a, ha, b, hb, h1, h2, h3, h4, rfl, rfl⟩
      exact ⟨b, hb, a, ha, h2, h1, h3.symm, h4.symm, rfl, rfl⟩
    · rintro ⟨a, ha, b, hb, h1, h2, h3, h4, rfl, rfl⟩
      exact ⟨b, hb, a, ha, h2, h1, h3.symm, h4.symm, rfl, rfl⟩

/-- Witness for C5 on a concrete graph: the reverse `NEAR` edge and the
reverse `STAIRS_TO` edge obtained from symmetry. -/
theorem C5_witness :
    ("2", "1", (4 : ℤ)) ∈ nearEdges
      [⟨"1", "ConferenceRoom", "A", "A1", 1⟩, ⟨"2", "ConferenceRoom", "B", "A3", 1⟩] ∧
    ("s2", "s1") ∈ stairsEdges
      [⟨"s1", "Stairs", "S1", "C7", 1⟩, ⟨"s2", "Stairs", "S2", "C7", 2⟩] := by
  have h := C5_current_builder_symmetric
    [⟨"1", "ConferenceRoom", "A", "A1", 1⟩, ⟨"2", "ConferenceRoom", "B", "A3", 1⟩]
  have h2 := C5_current_builder_symmetric
    [⟨"s1", "Stairs", "S1", "C7", 1⟩, ⟨"s2", "Stairs", "S2", "C7", 2⟩]
  exact ⟨(h.1 "1" "2" 4).mp (by decide), (h2.2 "s1" "s2").mp (by decide)⟩

/-- Counterexample to C5 as stated over every construction variant: the
builder of `old.py` records each `NEAR` pair as a single directed edge, so
the edge from A to B exists while the edge from B to A does not. -/
theorem C5_counterexample :
    ("1", "2", (1 : ℤ)) ∈ nearEdgesOld
      [⟨"1", "ConferenceRoom", "A", "A1", 1⟩, ⟨"2", "ConferenceRoom", "B", "A2", 1⟩] ∧
    ("2", "1", (1 : ℤ)) ∉ nearEdgesOld
      [⟨"1", "ConferenceRoom", "A", "A1", 1⟩, ⟨"2", "ConferenceRoom", "B", "A2", 1⟩] := by
  decide

/-! ## Lemmas about the router -/

theorem chainAdj_cons {g : RGraph} {x y : String} {rest : List String} :
    chainAdj g (x :: y :: rest) = true ↔
    adj g x y = true ∧ chainAdj g (y :: rest) = true := by
  simp [chainAdj]

theorem chainAdj_iff_chain' (g : RGraph) :
    ∀ p : List String, chainAdj g p = true ↔
      List.Chain' (fun a b => adj g a b = true) p := by
  intro p
  match p with
  | [] => simp [chainAdj]
  | [x] => simp [chainAdj]
  | x :: y :: rest =>
    rw [chainAdj_cons, List.chain'_cons, chainAdj_iff_chain' g (y :: rest)]

theorem spathsAux_sound (g : RGraph) :
    ∀ (fuel : ℕ) (x : String) (vis : List String) (p : List String),
    p ∈ spathsAux g fuel x vis →
    ∃ rest, p = x :: rest ∧ chainAdj g p = true ∧ ∀ m ∈ rest, m ∈ g.nodeNames := by
  intro fuel
  induction fuel with
  | zero =>
    intro x vis p hp
    simp only [spathsAux, List.mem_singleton] at hp
    exact ⟨[], hp, hp ▸ rfl, by simp [hp]⟩
  | succ f ih =>
    intro x vis p hp
    simp only [spathsAux, List.mem_cons] at hp
    rcases hp with rfl | hp
    · exact ⟨[], rfl, rfl, by simp⟩
    · rw [List.mem_flatMap] at hp
      obtain ⟨y, hy, hp⟩ := hp
      rw [List.mem_map] at hp
      obtain ⟨q, hq, rfl⟩ := hp
      rw [List.mem_filter] at hy
      obtain ⟨hyn, hycond⟩ := hy
      rw [Bool.and_eq_true] at hycond
      obtain ⟨rest', rfl, hchain, hmem⟩ := ih y (y :: vis) q hq
      refine ⟨y :: rest', rfl, ?_, ?_⟩
      · exact chainAdj_cons.2 ⟨hycond.1, hchain⟩
      · intro m hm
        rcases List.mem_cons.1 hm with rfl | hm'
        · exact hyn
        · exact hmem m hm'

theorem spathsAux_complete (g : RGraph) :
    ∀ (rest : List String) (fuel : ℕ) (x : String) (vis : List String),
    chainAdj g (x :: rest) = true →
    (∀ m ∈ rest, m ∈ g.nodeNames) →
    (∀ m ∈ rest, m ∉ vis) →
    (x :: rest).Nodup →
    rest.length ≤ fuel →
    (x :: rest) ∈ spathsAux g fuel x vis := by
  intro rest
  induction rest with
  | nil =>
    intro fuel x vis _ _ _ _ _
    cases fuel with
    | zero => simp [spathsAux]
    | succ f => simp [spathsAux]
  | cons y rest' ih =>
    intro fuel x vis hchain hmem hvis hnd hlen
    cases fuel with
    | zero => simp at hlen
    | succ f =>
      obtain ⟨hadj, hchain'⟩ := chainAdj_cons.1 hchain
      simp only [spathsAux]
      apply List.mem_cons_of_mem
      rw [List.mem_flatMap]
      refine ⟨y, ?_, ?_⟩
      · rw [List.mem_filter]
        refine ⟨hmem y (List.mem_cons_self _ _), ?_⟩
        rw [Bool.and_eq_true]
        refine ⟨hadj, ?_⟩
        have : y ∉ vis := hvis y (List.mem_cons_self _ _)
        simpa using this
      · rw [List.mem_map]
        refine ⟨y :: rest', ?_, rfl⟩
        have hynotin : y ∉ rest' := by
          have := List.Nodup.of_cons hnd
          rw [List.nodup_cons] at this
          exact this.1
        apply ih f y (y :: vis) hchain'
        · intro m hm
          exact hmem m (List.mem_cons_of_mem _ hm)
        · intro m hm
          rw [List.mem_cons]
          rintro (rfl | hmv)
          · exact hynotin hm
          · exact hvis m (List.mem_cons_of_mem _ hm) hmv
        · exact List.Nodup.of_cons hnd
        · exact Nat.succ_le_succ_iff.1 hlen

theorem exists_dup_split {α : Type} {l : List α} (h : ¬ l.Nodup) :
    ∃ a l₁ l₂ l₃, l = l₁ ++ a :: (l₂ ++ a :: l₃) := by
  induction l with
  | nil => exact absurd List.nodup_nil h
  | cons x t ih =>
    by_cases hx : x ∈ t
    · obtain ⟨s, t', rfl⟩ := List.append_of_mem hx
      exact ⟨x, [], s, t', by simp⟩
    · have hnt : ¬ t.Nodup := by
        intro hnd
        exact h (List.nodup_cons.2 ⟨hx, hnd⟩)
      obtain ⟨a, l₁, l₂, l₃, rfl⟩ := ih hnt
      exact ⟨a, x :: l₁, l₂, l₃, by simp⟩

theorem chain_shortcut {g : RGraph} {a : String} {l₁ l₂ l₃ : List String}
    (h : chainAdj g (l₁ ++ a :: (l₂ ++ a :: l₃)) = true) :
    chainAdj g (l₁ ++ a :: l₃) = true := by
  rw [chainAdj_iff_chain'] at h ⊢
  rw [List.chain'_append] at h ⊢
  obtain ⟨h1, h2, h3⟩ := h
  refine ⟨h1, ?_, ?_⟩
  · have h2' : List.Chain' (fun a b => adj g a b = true) ((a :: l₂) ++ a :: l₃) := by
      simpa using h2
    exact (List.chain'_append.1 h2').2.1
  · intro x hx y hy
    simp only [List.head?_cons, Option.mem_def, Option.some.injEq] at hy
    subst hy
    exact h3 x hx a (by simp)

theorem dedup_chain (g : RGraph) :
    ∀ (n : ℕ) (p : List String), p.length ≤ n → chainAdj g p = true →
    ∃ q, q.Nodup ∧ chainAdj g q = true ∧ q.head? = p.head? ∧
      q.getLast? = p.getLast? ∧ q.length ≤ p.length ∧ ∀ m ∈ q, m ∈ p := by
  intro n
  induction n with
  | zero =>
    intro p hlen hchain
    have : p = [] := List.length_eq_zero.1 (Nat.le_zero.1 hlen)
    subst this
    exact ⟨[], List.nodup_nil, rfl, rfl, rfl, le_refl _, by simp⟩
  | succ n ih =>
    intro p hlen hchain
    by_cases hnd : p.Nodup
    · exact ⟨p, hnd, hchain, rfl, rfl, le_refl _, fun m hm => hm⟩
    · obtain ⟨a, l₁, l₂, l₃, rfl⟩ := exists_dup_split hnd
      have hq₀chain := chain_shortcut hchain
      have hq₀len : (l₁ ++ a :: l₃).length < (l₁ ++ a :: (l₂ ++ a :: l₃)).length := by
        simp
        omega
      obtain ⟨q, hqnd, hqchain, hqhead, hqlast, hqlen, hqmem⟩ :=
        ih (l₁ ++ a :: l₃) (by simp at hlen hq₀len ⊢; omega) hq₀chain
      refine ⟨q, hqnd, hqchain, ?_, ?_, ?_, ?_⟩
      · rw [hqhead]
        cases l₁ <;> simp
      · rw [hqlast]
        rw [List.getLast?_append_of_ne_nil _ (by simp), List.getLast?_append_of_ne_nil _ (by simp)]
        have : (a :: (l₂ ++ a :: l₃)).getLast? = ((a :: l₂) ++ a :: l₃).getLast? := by simp
        rw [this, List.getLast?_append_of_ne_nil _ (by simp)]
      · omega
      · intro m hm
        have := hqmem m hm
        simp only [List.mem_append, List.mem_cons] at this ⊢
        tauto

theorem pickMin_fold_spec :
    ∀ (t : List (List String)) (h : List String),
    (t.foldl (fun best p => if p.length < best.length then p else best) h) ∈ h :: t ∧
    ∀ q ∈ h :: t,
      (t.foldl (fun best p => if p.length < best.length then p else best) h).length ≤ q.length := by
  intro t
  induction t with
  | nil => simp
  | cons p t ih =>
    intro h
    simp only [List.foldl_cons]
    obtain ⟨hmem, hmin⟩ := ih (if p.length < h.length then p else h)
    have hble_h : (if p.length < h.length then p else h).length ≤ h.length := by
      split <;> omega
    have hble_p : (if p.length < h.length then p else h).length ≤ p.length := by
      split <;> omega
    constructor
    · rcases List.mem_cons.1 hmem with he | hm
      · rw [he]
        split
        · exact List.mem_cons_of_mem _ (List.mem_cons_self _ _)
        · exact List.mem_cons_self _ _
      · exact List.mem_cons_of_mem _ (List.mem_cons_of_mem _ hm)
    · intro q hq
      have hres := hmin _ (List.mem_cons_self _ _)
      rcases List.mem_cons.1 hq with rfl | hq'
      · exact le_trans hres hble_h
      · rcases List.mem_cons.1 hq' with rfl | hq''
        · exact le_trans hres hble_p
        · exact hmin q (List.mem_cons_of_mem _ hq'')

theorem pickMin_mem {L : List (List String)} {p : List String}
    (h : pickMin L = some p) : p ∈ L := by
  cases L with
  | nil => simp [pickMin] at h
  | cons x t =>
    simp only [pickMin, Option.some.injEq] at h
    exact h ▸ (pickMin_fold_spec t x).1

theorem pickMin_min {L : List (List String)} {p : List String}
    (h : pickMin L = some p) : ∀ q ∈ L, p.length ≤ q.length := by
  cases L with
  | nil => simp [pickMin] at h
  | cons x t =>
    simp only [pickMin, Option.some.injEq] at h
    exact h ▸ (pickMin_fold_spec t x).2

/-- Soundness and hop-minimality of the router: a non-empty result is a
valid path over the admitted edge kinds and no valid path between the same
endpoints has fewer nodes. -/
theorem shortest_path_spec (g : RGraph) (s e : String)
    (hne : get_shortest_path g s e ≠ []) :
    validPath g s e (get_shortest_path g s e) ∧
    ∀ q, validPath g s e q → (get_shortest_path g s e).length ≤ q.length := by
  unfold get_shortest_path at hne ⊢
  by_cases hin : s ∈ g.nodeNames ∧ e ∈ g.nodeNames
  · rw [if_neg (not_not_intro hin)] at hne ⊢
    by_cases hse : s = e
    · rw [if_pos hse] at hne ⊢
      subst hse
      constructor
      · refine ⟨by simp, rfl, by simp, ?_, rfl⟩
        intro m hm
        rw [List.mem_singleton] at hm
        exact hm ▸ hin.1
      · rintro q ⟨hq0, -, -, -, -⟩
        simpa using Nat.one_le_iff_ne_zero.2 (fun h0 => hq0 (List.length_eq_zero.1 h0))
    · rw [if_neg hse] at hne ⊢
      rcases hpick : pickMin (candidates g s e) with - | p
      · rw [hpick] at hne
        simp at hne
      · simp only [hpick]
        have hpmem : p ∈ candidates g s e := pickMin_mem hpick
        unfold candidates at hpmem
        rw [List.mem_filter] at hpmem
        obtain ⟨hsp, hlastb⟩ := hpmem
        obtain ⟨rest, rfl, hchain, hrestmem⟩ := spathsAux_sound g _ s [s] _ hsp
        have hlast : (s :: rest).getLast? = some e := by
          simpa using hlastb
        constructor
        · refine ⟨by simp, rfl, hlast, ?_, hchain⟩
          intro m hm
          rcases List.mem_cons.1 hm with rfl | hm'
          · exact hin.1
          · exact hrestmem m hm'
        · rintro q ⟨hq0, hqhead, hqlast, hqmem, hqchain⟩
          obtain ⟨q', hq'nd, hq'chain, hq'head, hq'last, hq'len, hq'sub⟩ :=
            dedup_chain g q.length q le_rfl hqchain
          have hq'0 : q' ≠ [] := by
            intro h0
            rw [h0] at hq'head
            rw [hqhead] at hq'head
            simp at hq'head
          obtain ⟨x, q'rest, rfl⟩ := List.exists_cons_of_ne_nil hq'0
          have hx : x = s := by
            rw [hqhead] at hq'head
            simpa using hq'head
          subst hx
          have hsub : ∀ m ∈ x :: q'rest, m ∈ g.nodeNames :=
            fun m hm => hqmem m (hq'sub m hm)
          have hlen_bound : (x :: q'rest).length ≤ g.nodeNames.length :=
            List.Subperm.length_le (List.subperm_of_subset hq'nd hsub)
          have hsnotin : x ∉ q'rest := (List.nodup_cons.1 hq'nd).1
          have hcomp := spathsAux_complete g q'rest g.nodeNames.length x [x] hq'chain
            (fun m hm => hsub m (List.mem_cons_of_mem _ hm))
            (by
              intro m hm
              rw [List.mem_singleton]
              rintro rfl
              exact hsnotin hm)
            hq'nd
            (Nat.le_of_succ_le hlen_bound)
          have hq'cand : (x :: q'rest) ∈ candidates g x e := by
            unfold candidates
            rw [List.mem_filter]
            refine ⟨hcomp, ?_⟩
            rw [hqlast] at hq'last
            simpa using hq'last
          exact le_trans (pickMin_min hpick _ hq'cand) hq'len
  · rw [if_pos hin] at hne
    simp at hne

theorem mem_of_head?_eq {l : List String} {a : String} (h : l.head? = some a) : a ∈ l := by
  cases l with
  | nil => simp at h
  | cons x t =>
    simp only [List.head?_cons, Option.some.injEq] at h
    exact h ▸ List.mem_cons_self _ _

theorem mem_of_getLast?_eq {l : List String} {a : String} (h : l.getLast? = some a) : a ∈ l := by
  induction l with
  | nil => simp at h
  | cons x t ih =>
    cases t with
    | nil =>
      simp only [List.getLast?_singleton, Option.some.injEq] at h
      exact h ▸ List.mem_cons_self _ _
    | cons y t' =>
      rw [List.getLast?_cons_cons] at h
      exact List.mem_cons_of_mem _ (ih h)

/-- C1 (amended): a non-empty router result is a path traversing only
`NEAR` / vertical-connection edges from the start name to the end name, and
no path between the same endpoints over that subgraph uses fewer edges.
The engine is Cypher's unweighted `shortestPath` (fewest relationships),
not weight-minimizing Dijkstra, so total edge weight is not minimized. -/
theorem C1_router_fewest_hops (g : RGraph) (s e : String)
    (hne : get_shortest_path g s e ≠ []) :
    validPath g s e (get_shortest_path g s e) ∧
    ∀ q, validPath g s e q → (get_shortest_path g s e).length ≤ q.length :=
  shortest_path_spec g s e hne

/-- Witness for C1 on the concrete line graph `a - b - c`. -/
theorem C1_witness :
    get_shortest_path lineGraph "a" "c" ≠ [] ∧
    validPath lineGraph "a" "c" (get_shortest_path lineGraph "a" "c") ∧
    (get_shortest_path lineGraph "a" "c").length ≤ (["a", "b", "c"] : List String).length := by
  have h := C1_router_fewest_hops lineGraph "a" "c" (by decide)
  exact ⟨by decide, h.1, h.2 ["a", "b", "c"] (by decide)⟩

/-- Counterexample to C1 as stated: in `heavyGraph` the router returns the
one-hop path `a - b` of total weight 5 although the valid two-hop path
`a - c - b` has total weight 2, so the returned path does not minimize
total edge weight. -/
theorem C1_counterexample :
    get_shortest_path heavyGraph "a" "b" = ["a", "b"] ∧
    validPath heavyGraph "a" "b" ["a", "c", "b"] ∧
    pathWeight heavyGraph ["a", "c", "b"] <
      pathWeight heavyGraph (get_shortest_path heavyGraph "a" "b") := by
  have hgs : get_shortest_path heavyGraph "a" "b" = ["a", "b"] := by decide
  refine ⟨hgs, by decide, ?_⟩
  rw [hgs]
  have h1 : edgeWeight heavyGraph "a" "c" = 1 := by decide
  have h2 : edgeWeight heavyGraph "c" "b" = 1 := by decide
  have h3 : edgeWeight heavyGraph "a" "b" = 5 := by decide
  simp only [pathWeight, h1, h2, h3]
  norm_num

/-- C3 (amended): a failed query — either name absent from the graph, or
both names present but no connecting path — returns the explicit empty
list; the two failure cases produce the same result and are therefore not
distinguishable from each other. -/
theorem C3_failures_empty (g : RGraph) (s e : String)
    (h : (s ∉ g.nodeNames ∨ e ∉ g.nodeNames) ∨ ¬ ∃ q, validPath g s e q) :
    get_shortest_path g s e = [] := by
  by_contra hne
  obtain ⟨hvalid, -⟩ := shortest_path_spec g s e hne
  obtain ⟨-, hphead, hplast, hpmem, -⟩ := hvalid
  rcases h with hab | hnp
  · rcases hab with hs | he
    · exact hs (hpmem s (mem_of_head?_eq hphead))
    · exact he (hpmem e (mem_of_getLast?_eq hplast))
  · exact hnp ⟨_, shortest_path_spec g s e hne |>.1⟩

/-- Witness for C3: an absent start name on a concrete graph yields the
empty result. -/
theorem C3_witness : get_shortest_path islandGraph "z" "a" = [] :=
  C3_failures_empty islandGraph "z" "a" (Or.inl (Or.inl (by decide)))

/-- Counterexample to C3 as stated: an absent name (`"z"`) and a valid but
disconnected pair (`"a"`, `"b"`) both return `[]` — the `NotFound` and
`NoPath` outcomes are identical, not distinguishable. -/
theorem C3_counterexample :
    get_shortest_path islandGraph "z" "a" = [] ∧
    get_shortest_path islandGraph "a" "b" = [] ∧
    get_shortest_path islandGraph "z" "a" = get_shortest_path islandGraph "a" "b" := by
  decide

/-! ## Lemmas about the recommender -/

theorem entryDist_mono {a b : Entry} (h : a ≤ b) : entryDist a ≤ entryDist b := by
  have h' := (Prod.Lex.le_iff (ofLex a) (ofLex b)).mp h
  rcases h' with hlt | ⟨heq, -⟩
  · exact le_of_lt hlt
  · exact le_of_eq heq

theorem entryDist_roomEntry (dist : String → String → Option ℚ) (grids : List String)
    (room : Room) : entryDist (roomEntry dist grids room) = meanDistance dist grids room :=
  rfl

theorem filterMap_ite {α β : Type} (c : α → Bool) (f : α → β) :
    ∀ l : List α,
      l.filterMap (fun a => if c a then none else some (f a)) =
      (l.filter (fun a => !(c a))).map f := by
  intro l
  induction l with
  | nil => rfl
  | cons x t ih =>
    by_cases hx : c x
    · simp [List.filterMap_cons, List.filter_cons, hx, ih]
    · simp [List.filterMap_cons, List.filter_cons, hx, ih]

theorem recommend_entries_eq (dist : String → String → Option ℚ) (grids : List String)
    (rooms : List Room) :
    rooms.filterMap (fun room =>
      if (roomDistances dist grids room).isEmpty then none
      else some (roomEntry dist grids room)) =
    (rankedRooms dist grids rooms).map (roomEntry dist grids) := by
  rw [rankedRooms]
  exact filterMap_ite (fun room => (roomDistances dist grids room).isEmpty)
    (roomEntry dist grids) rooms

theorem recommend_length (dist : String → String → Option ℚ) (grids : List String)
    (rooms : List Room) (k : ℕ) :
    (recommend dist grids rooms k).length = min k (rankedRooms dist grids rooms).length := by
  unfold recommend
  rw [recommend_entries_eq]
  have hperm := List.perm_insertionSort (fun a b : Entry => a ≤ b)
    ((rankedRooms dist grids rooms).map (roomEntry dist grids))
  have hlen := hperm.length_eq
  rw [List.length_map] at hlen
  simp only [List.length_map, List.length_take]
  omega

/-- C2 (amended): for every injected distance function, requester grid
list, available-room list, and k, the recommender's output is sorted
ascending by mean distance, has length `min k rankedCount` where
`rankedCount` counts the available rooms with at least one computable
requester distance, and every returned mean distance is at most the mean
distance of every ranked available room that was not returned. -/
theorem C2_recommend_spec (dist : String → String → Option ℚ) (grids : List String)
    (rooms : List Room) (k : ℕ) :
    List.Sorted (· ≤ ·) ((recommend dist grids rooms k).map (fun r => r.2.2.1)) ∧
    (recommend dist grids rooms k).length = min k (rankedRooms dist grids rooms).length ∧
    (∀ x ∈ recommend dist grids rooms k, ∀ r ∈ rooms,
      (roomDistances dist grids r).isEmpty = false →
      entryOut (roomEntry dist grids r) ∉ recommend dist grids rooms k →
      x.2.2.1 ≤ meanDistance dist grids r) := by
  refine ⟨?_, recommend_length dist grids rooms k, ?_⟩
  · unfold recommend
    dsimp only
    set entries := rooms.filterMap (fun room =>
      if (roomDistances dist grids room).isEmpty then none
      else some (roomEntry dist grids room)) with hE
    set L := List.insertionSort (fun a b : Entry => a ≤ b) entries with hL
    have hsorted : List.Pairwise (fun a b : Entry => a ≤ b) L :=
      List.sorted_insertionSort (fun a b : Entry => a ≤ b) entries
    have htake : List.Pairwise (fun a b : Entry => a ≤ b) (List.take (min k L.length) L) :=
      hsorted.sublist (List.take_sublist _ _)
    have htake2 : List.Pairwise
        (fun a b : Entry => (entryOut a).2.2.1 ≤ (entryOut b).2.2.1)
        (List.take (min k L.length) L) :=
      htake.imp (fun hab => entryDist_mono hab)
    exact List.pairwise_map.mpr (List.pairwise_map.mpr htake2)
  · intro x hx r hr hne hnot
    unfold recommend at hx hnot
    dsimp only at hx hnot
    set entries := rooms.filterMap (fun room =>
      if (roomDistances dist grids room).isEmpty then none
      else some (roomEntry dist grids room)) with hentries
    set sorted := List.insertionSort (fun a b : Entry => a ≤ b) entries with hsorted
    set n := min k sorted.length with hn
    rw [List.mem_map] at hx
    obtain ⟨u, hu, rfl⟩ := hx
    have hrmem : roomEntry dist grids r ∈ entries := by
      rw [hentries, recommend_entries_eq]
      apply List.mem_map_of_mem
      rw [rankedRooms, List.mem_filter]
      exact ⟨hr, by simp [hne]⟩
    have hrsorted : roomEntry dist grids r ∈ sorted := by
      rw [hsorted]
      exact (List.perm_insertionSort _ _).symm.subset hrmem
    have hsplit : List.take n sorted ++ List.drop n sorted = sorted :=
      List.take_append_drop n sorted
    rcases List.mem_append.1 (hsplit ▸ hrsorted) with htk | hdr
    · exact absurd (List.mem_map_of_mem entryOut htk) hnot
    · have hpair : List.Pairwise (fun a b : Entry => a ≤ b)
          (List.take n sorted ++ List.drop n sorted) := by
        rw [hsplit]
        exact List.sorted_insertionSort (fun a b : Entry => a ≤ b) entries
      have hle : u ≤ roomEntry dist grids r :=
        (List.pairwise_append.1 hpair).2.2 u hu _ hdr
      exact entryDist_mono hle

theorem graphDistQ_a1a2 : graphDistQ "A1" "A2" = some 1 := by
  have h : calculate_grid_distance_sq "A1" "A2" = some 1 := by decide
  simp [graphDistQ, h]

theorem graphDistQ_a1a9 : graphDistQ "A1" "A9" = some 64 := by
  have h : calculate_grid_distance_sq "A1" "A9" = some 64 := by decide
  simp [graphDistQ, h]

theorem rec_witness_rd1 :
    roomDistances graphDistQ ["A1"] ⟨"1", "R1", "A2", 4, "conf"⟩ = [1] := by
  simp [roomDistances, graphDistQ_a1a2]

theorem rec_witness_rd2 :
    roomDistances graphDistQ ["A1"] ⟨"2", "R2", "A9", 6, "conf"⟩ = [64] := by
  simp [roomDistances, graphDistQ_a1a9]

theorem rec_witness_m1 :
    meanDistance graphDistQ ["A1"] ⟨"1", "R1", "A2", 4, "conf"⟩ = 1 := by
  rw [meanDistance, rec_witness_rd1]
  norm_num

theorem rec_witness_m2 :
    meanDistance graphDistQ ["A1"] ⟨"2", "R2", "A9", 6, "conf"⟩ = 64 := by
  rw [meanDistance, rec_witness_rd2]
  norm_num

theorem rec_witness_out :
    recommend graphDistQ ["A1"] [⟨"1", "R1", "A2", 4, "conf"⟩, ⟨"2", "R2", "A9", 6, "conf"⟩] 1 =
    [("R1", "A2", (1 : ℚ), 4, "conf")] := by
  have he1 : roomEntry graphDistQ ["A1"] ⟨"1", "R1", "A2", 4, "conf"⟩ =
      mkEntry 1 "R1" "A2" 4 "conf" := by
    rw [roomEntry, rec_witness_m1]
  have he2 : roomEntry graphDistQ ["A1"] ⟨"2", "R2", "A9", 6, "conf"⟩ =
      mkEntry 64 "R2" "A9" 6 "conf" := by
    rw [roomEntry, rec_witness_m2]
  have hle : (mkEntry 1 "R1" "A2" 4 "conf" : Entry) ≤ mkEntry 64 "R2" "A9" 6 "conf" :=
    (Prod.Lex.le_iff _ _).mpr (Or.inl (by norm_num))
  unfold recommend
  dsimp only
  rw [List.filterMap_cons, List.filterMap_cons, List.filterMap_nil]
  rw [rec_witness_rd1, rec_witness_rd2, he1, he2]
  simp only [List.isEmpty_cons]
  simp only [List.insertionSort, List.orderedInsert]
  rw [if_pos hle]
  rfl

/-- Witness for C2 on a concrete instance: requester at "A1", two available
rooms at "A2" (mean 1) and "A9" (mean 64), k = 1: the output keeps the
closer room and its mean is at most the mean of the excluded room. -/
theorem C2_witness :
    (recommend graphDistQ ["A1"]
      [⟨"1", "R1", "A2", 4, "conf"⟩, ⟨"2", "R2", "A9", 6, "conf"⟩] 1).length = 1 ∧
    ("R1", "A2", (1 : ℚ), 4, "conf") ∈ recommend graphDistQ ["A1"]
      [⟨"1", "R1", "A2", 4, "conf"⟩, ⟨"2", "R2", "A9", 6, "conf"⟩] 1 ∧
    (1 : ℚ) ≤ meanDistance graphDistQ ["A1"] ⟨"2", "R2", "A9", 6, "conf"⟩ := by
  have h := C2_recommend_spec graphDistQ ["A1"]
    [⟨"1", "R1", "A2", 4, "conf"⟩, ⟨"2", "R2", "A9", 6, "conf"⟩] 1
  have hout := rec_witness_out
  have hentry2 : entryOut (roomEntry graphDistQ ["A1"] ⟨"2", "R2", "A9", 6, "conf"⟩) =
      ("R2", "A9", (64 : ℚ), 6, "conf") := by
    rw [roomEntry, rec_witness_m2]
    rfl
  refine ⟨by rw [hout]; rfl, by rw [hout]; exact List.mem_singleton.2 rfl, ?_⟩
  have h3 := h.2.2 ("R1", "A2", (1 : ℚ), 4, "conf")
    (by rw [hout]; exact List.mem_singleton.2 rfl)
    ⟨"2", "R2", "A9", 6, "conf"⟩
    (by simp)
    (by rw [rec_witness_rd2]; rfl)
    (by
      rw [hout, hentry2]
      simp)
  exact h3

/-- Counterexample to C2 as stated: with two available rooms of which one
has an unparseable grid and k = 2, the output has length 1, not
`min k availableCount = 2` — rooms without a computable distance are
dropped from the ranking entirely. -/
theorem C2_counterexample :
    (recommend graphDistQ ["A1"]
      [⟨"1", "R1", "A2", 4, "conf"⟩, ⟨"2", "R2", "??", 6, "conf"⟩] 2).length ≠
    min 2 ([⟨"1", "R1", "A2", 4, "conf"⟩, ⟨"2", "R2", "??", 6, "conf"⟩] : List Room).length := by
  rw [recommend_length]
  have h : (rankedRooms graphDistQ ["A1"]
      [⟨"1", "R1", "A2", 4, "conf"⟩, ⟨"2", "R2", "??", 6, "conf"⟩]).length = 1 := by decide
  rw [h]
  decide

/-- C10: when no requester grid parses to a coordinate (including the empty
requester list), every room's computable-distance list is empty, so the
recommender returns the empty list regardless of which rooms are
available. -/
theorem C10_no_parsable_requesters (grids : List String) (rooms : List Room) (k : ℕ)
    (h : ∀ g ∈ grids, parse_grid2 g = none) :
    recommend graphDistQ grids rooms k = [] := by
  have hdist : ∀ room : Room, roomDistances graphDistQ grids room = [] := by
    intro room
    rw [roomDistances, List.filterMap_eq_nil_iff]
    intro g hg
    rw [graphDistQ, calc_none_left (h g hg)]
    rfl
  unfold recommend
  dsimp only
  have hent : rooms.filterMap (fun room =>
      if (roomDistances graphDistQ grids room).isEmpty then none
      else some (roomEntry graphDistQ grids room)) = [] := by
    rw [List.filterMap_eq_nil_iff]
    intro room _
    simp [hdist room]
  rw [hent]
  simp [List.insertionSort]

/-- Witness for C10: a single unparseable requester grid and one available
room yield the empty recommendation. -/
theorem C10_witness :
    recommend graphDistQ ["123"] [⟨"1", "R1", "A2", 4, "conf"⟩] 3 = [] :=
  C10_no_parsable_requesters ["123"] [⟨"1", "R1", "A2", 4, "conf"⟩] 3 (by decide)

/-! ## Lemmas about the direction renderer -/

theorem genSteps_length : ∀ ns : List PathNode, (genSteps ns).length = parseablePairCount ns
  | [] => rfl
  | [_] => rfl
  | cur :: nxt :: rest => by
    have ih := genSteps_length (nxt :: rest)
    rw [genSteps, parseablePairCount, List.length_append, ih]
    rcases h1 : parse_grid cur.grid with - | p1 <;>
      rcases h2 : parse_grid nxt.grid with - | p2 <;>
        simp [h1, h2]

/-- C8 (amended): the direction renderer emits exactly one step for every
consecutive pair of path nodes whose grids both parse — pairs with an
unparseable grid are skipped without error, and a pair with identical
coordinates still emits its (zero-distance) step rather than being
omitted. -/
theorem C8_steps_exactly_parseable_pairs (node_infos : List PathNode) :
    (generate_directions node_infos).length = parseablePairCount node_infos := by
  unfold generate_directions
  split
  · rename_i hlt
    match node_infos, hlt with
    | [], _ => rfl
    | [_], _ => rfl
    | a :: b :: t, h =>
      simp at h
      omega
  · exact genSteps_length node_infos

/-- Counterexample to C8 as stated: two consecutive nodes at the same grid
"E9" emit one step of distance 0 — the zero-length step is not omitted. -/
theorem C8_counterexample :
    (generate_directions [⟨"Bajoran", "E9", 1⟩, ⟨"Borg", "E9", 1⟩]).length = 1 ∧
    (generate_directions [⟨"Bajoran", "E9", 1⟩, ⟨"Borg", "E9", 1⟩]).map Step.distSq = [0] := by
  have hp : parse_grid "E9" = some (5, 9) := by decide
  unfold generate_directions
  rw [if_neg (by simp)]
  simp only [genSteps, hp]
  norm_num

theorem minByKey_mem (key : ℝ × String → ℝ) :
    ∀ (l : List (ℝ × String)) (best : ℝ × String),
    minByKey key l best = best ∨ minByKey key l best ∈ l := by
  intro l
  induction l with
  | nil => intro best; exact Or.inl rfl
  | cons d rest ih =>
    intro best
    rw [minByKey]
    rcases ih (if key d < key best then d else best) with h | h
    · rw [h]
      split
      · exact Or.inr (List.mem_cons_self _ _)
      · exact Or.inl rfl
    · exact Or.inr (List.mem_cons_of_mem _ h)

/-- C9 (amended): the rendered compass direction is always one of the 8
principal labels.  It is chosen by minimizing `|label - angle|` without
circular wraparound, so for angles in (337.5°, 360°) the code yields
"southwest" rather than the circularly nearest "south" (see the
counterexample); at reachable integer inputs the candidate keys are never
exactly tied. -/
theorem C9_direction_in_eight (dx dy : ℤ) :
    vector_to_direction dx dy ∈
      ["south", "southeast", "east", "northeast", "north", "northwest", "west", "southwest"] := by
  unfold vector_to_direction
  rcases minByKey_mem (fun d => |d.1 - angleDeg dx dy|) (compassDirs.drop 1)
      (compassDirs.headD (0, "south")) with h | h
  · rw [h]
    simp [compassDirs]
  · simp only [compassDirs, List.drop_succ_cons, List.drop_zero, List.headD_cons,
      List.mem_cons, List.not_mem_nil, or_false] at h ⊢
    rcases h with h | h | h | h | h | h | h <;> rw [h] <;> simp

theorem closest_for_large_angle {a : ℝ} (h1 : 337.5 < a) :
    minByKey (fun d => |d.1 - a|) (compassDirs.drop 1) (compassDirs.headD (0, "south")) =
    (315, "southwest") := by
  have habs : ∀ d : ℝ, d ≤ 315 → |d - a| = a - d := by
    intro d hd
    rw [abs_of_neg (by linarith)]
    ring
  have c1 : |(45 : ℝ) - a| < |(0 : ℝ) - a| := by
    rw [habs 45 (by norm_num), habs 0 (by norm_num)]
    linarith
  have c2 : |(90 : ℝ) - a| < |(45 : ℝ) - a| := by
    rw [habs 90 (by norm_num), habs 45 (by norm_num)]
    linarith
  have c3 : |(135 : ℝ) - a| < |(90 : ℝ) - a| := by
    rw [habs 135 (by norm_num), habs 90 (by norm_num)]
    linarith
  have c4 : |(180 : ℝ) - a| < |(135 : ℝ) - a| := by
    rw [habs 180 (by norm_num), habs 135 (by norm_num)]
    linarith
  have c5 : |(225 : ℝ) - a| < |(180 : ℝ) - a| := by
    rw [habs 225 (by norm_num), habs 180 (by norm_num)]
    linarith
  have c6 : |(270 : ℝ) - a| < |(225 : ℝ) - a| := by
    rw [habs 270 (by norm_num), habs 225 (by norm_num)]
    linarith
  have c7 : |(315 : ℝ) - a| < |(270 : ℝ) - a| := by
    rw [habs 315 (by norm_num), habs 270 (by norm_num)]
    linarith
  simp only [compassDirs, List.drop_succ_cons, List.drop_zero, List.headD_cons, minByKey]
  simp only [c1, c2, c3, c4, c5, c6, c7, if_true]

theorem nearest_for_large_angle {a : ℝ} (h1 : 337.5 < a) (h2 : a < 360) :
    minByKey (fun d => min |d.1 - a| (360 - |d.1 - a|)) (compassDirs.drop 1)
      (compassDirs.headD (0, "south")) = (0, "south") := by
  have habs : ∀ d : ℝ, d ≤ 315 → |d - a| = a - d := by
    intro d hd
    rw [abs_of_neg (by linarith)]
    ring
  have hb : min |(0 : ℝ) - a| (360 - |(0 : ℝ) - a|) = 360 - (a - 0) := by
    rw [habs 0 (by norm_num), min_eq_right (by linarith)]
  have n1 : ¬ min |(45 : ℝ) - a| (360 - |(45 : ℝ) - a|) <
      min |(0 : ℝ) - a| (360 - |(0 : ℝ) - a|) := by
    rw [hb, habs 45 (by norm_num), min_eq_right (by linarith)]
    simp only [not_lt]
    linarith
  have n2 : ¬ min |(90 : ℝ) - a| (360 - |(90 : ℝ) - a|) <
      min |(0 : ℝ) - a| (360 - |(0 : ℝ) - a|) := by
    rw [hb, habs 90 (by norm_num), min_eq_right (by linarith)]
    simp only [not_lt]
    linarith
  have n3 : ¬ min |(135 : ℝ) - a| (360 - |(135 : ℝ) - a|) <
      min |(0 : ℝ) - a| (360 - |(0 : ℝ) - a|) := by
    rw [hb, habs 135 (by norm_num), min_eq_right (by linarith)]
    simp only [not_lt]
    linarith
  have n4 : ¬ min |(180 : ℝ) - a| (360 - |(180 : ℝ) - a|) <
      min |(0 : ℝ) - a| (360 - |(0 : ℝ) - a|) := by
    rw [hb, habs 180 (by norm_num), min_eq_left (by linarith)]
    simp only [not_lt]
    linarith
  have n5 : ¬ min |(225 : ℝ) - a| (360 - |(225 : ℝ) - a|) <
      min |(0 : ℝ) - a| (360 - |(0 : ℝ) - a|) := by
    rw [hb, habs 225 (by norm_num), min_eq_left (by linarith)]
    simp only [not_lt]
    linarith
  have n6 : ¬ min |(270 : ℝ) - a| (360 - |(270 : ℝ) - a|) <
      min |(0 : ℝ) - a| (360 - |(0 : ℝ) - a|) := by
    rw [hb, habs 270 (by norm_num), min_eq_left (by linarith)]
    simp only [not_lt]
    linarith
  have n7 : ¬ min |(315 : ℝ) - a| (360 - |(315 : ℝ) - a|) <
      min |(0 : ℝ) - a| (360 - |(0 : ℝ) - a|) := by
    rw [hb, habs 315 (by norm_num), min_eq_left (by linarith)]
    simp only [not_lt]
    linarith
  simp only [compassDirs, List.drop_succ_cons, List.drop_zero, List.headD_cons, minByKey]
  simp only [n1, n2, n3, n4, n5, n6, n7, if_false]

theorem angleDeg_3_neg1_bounds : 337.5 < angleDeg 3 (-1) ∧ angleDeg 3 (-1) < 360 := by
  have hpi3 := Real.pi_gt_three
  have hpipos := Real.pi_pos
  have htpos : 0 < Real.arctan (1 / 3) := by
    have h := Real.arctan_strictMono (show (0 : ℝ) < 1 / 3 by norm_num)
    rwa [Real.arctan_zero] at h
  have htlt : Real.arctan (1 / 3) < 1 / 3 := by
    have hlt : (1 : ℝ) / 3 < Real.tan (1 / 3) :=
      Real.lt_tan (by norm_num) (by nlinarith)
    have h := Real.arctan_strictMono hlt
    rwa [Real.arctan_tan (by nlinarith) (by nlinarith)] at h
  have hat : atan2 ((-1 : ℤ) : ℝ) ((3 : ℤ) : ℝ) = -Real.arctan (1 / 3) := by
    unfold atan2
    rw [if_pos (show (0 : ℝ) < ((3 : ℤ) : ℝ) by norm_num)]
    have harg : (((-1 : ℤ) : ℝ) / ((3 : ℤ) : ℝ)) = -(1 / 3) := by norm_num
    rw [harg, Real.arctan_neg]
  have hdlt : -Real.arctan (1 / 3) * 180 / Real.pi < 0 := by
    apply div_neg_of_neg_of_pos _ hpipos
    nlinarith
  have hdgt : -22.5 < -Real.arctan (1 / 3) * 180 / Real.pi := by
    rw [neg_mul, neg_div, neg_lt_neg_iff]
    rw [div_lt_iff₀ hpipos]
    nlinarith
  have hfloor : ⌊(-Real.arctan (1 / 3) * 180 / Real.pi) / 360⌋ = -1 := by
    rw [Int.floor_eq_iff]
    push_cast
    constructor
    · rw [le_div_iff₀ (show (0 : ℝ) < 360 by norm_num)]
      nlinarith
    · rw [div_lt_iff₀ (show (0 : ℝ) < 360 by norm_num)]
      nlinarith
  have hangle : angleDeg 3 (-1) = -Real.arctan (1 / 3) * 180 / Real.pi + 360 := by
    unfold angleDeg pymod360
    rw [hat, hfloor]
    push_cast
    ring
  rw [hangle]
  constructor <;> linarith

/-- Counterexample to C9 as stated: at the signed delta vector (3, -1) the
angle is about 341.6 degrees; its circularly nearest octant is 0 degrees
("south"), but the code minimizes `|label - angle|` without wraparound and
returns "southwest" (315 degrees). -/
theorem C9_counterexample :
    vector_to_direction 3 (-1) = "southwest" ∧ nearestOctantDir 3 (-1) = "south" := by
  obtain ⟨hb1, hb2⟩ := angleDeg_3_neg1_bounds
  unfold vector_to_direction nearestOctantDir
  rw [closest_for_large_angle hb1, nearest_for_large_angle hb1 hb2]
  exact ⟨rfl, rfl⟩
